import Mathlib

/-!
Verification development for the numerical core of the pygwb repository:
the window/bias estimator of `src/pygwb/util.py`, the notch masking step of
`src/pyGWB_Pipeline.py`, and the correlated-noise simulator of
`src/pygwb/simulator.py`.

Embedding conventions.
Python/numpy floating point numbers are modelled as exact rationals (ℚ) in
the estimator part and as reals (ℝ/ℂ) in the simulator part.  An operation
that raises a Python exception, or whose numpy result is non-finite
(inf/nan), is modelled as `none` (`Option`) or `Except.error`.  Window
sample sequences produced by the external `scipy.signal.get_window` are
passed in as explicit lists (for supported specs such as boxcar these
sample values are known: a boxcar of length N is N ones, a symmetric Hann
of length 4 is [0, 3/4, 3/4, 0]).  The external `numpy.linalg.eig` is
modelled by quantifying over eigenvalue/eigenvector arrays that satisfy
the documented eigendecomposition contract, and `numpy.fft.ifft` by its
defining formula.
-/

/-- Python float division: a zero denominator raises ZeroDivisionError
(numpy scalar division by zero yields a non-finite value instead; both
failure modes are modelled as `none`). -/
def pydiv (a b : ℚ) : Option ℚ := if b = 0 then none else some (a / b)

/-- Python `int()` applied to a float: truncation toward zero.
Used for `N = int(segmentDuration / deltaT)` in `calc_bias`
(src/pygwb/util.py line 79). -/
def pyint (q : ℚ) : ℤ := if 0 ≤ q then ⌊q⌋ else ⌈q⌉

/-- Rounding to the nearest integer (the operation the spec's §4.2 claims
is used to obtain N: "N = round(segment_duration / deltaT)"). -/
def round_half_up (q : ℚ) : ℤ := ⌊q + 1 / 2⌋

/-- numpy elementwise binary operation on two 1-d arrays with numpy
broadcasting: equal lengths operate pointwise, a length-1 operand is
broadcast across the other, and any other shape mismatch raises
ValueError (modelled as `none`). -/
def np_bin {α : Type} [Inhabited α] (f : α → α → α) (a b : List α) : Option (List α) :=
  if a.length = b.length then some (List.zipWith f a b)
  else if a.length = 1 then some (b.map (fun x => f a.headI x))
  else if b.length = 1 then some (a.map (fun x => f x b.headI))
  else none

/-- Embedding of `window_factors` (src/pygwb/util.py lines 14-29) as a
function of the window sample sequence `w` returned by
`scipy.signal.get_window` (whose length is the N passed to it):
w1w2bar = mean(w**2), w1w2squaredbar = mean(w**4),
w1 = w[int(N/2):N], w2 = w[0:int(N/2)],
w1w2squaredovlbar = 1/(N/2) * sum(w1**2 * w2**2) (computed first, as in
the source), w1w2ovlbar = 1/(N/2) * sum(w1*w2). -/
def window_factors (w : List ℚ) : Option (ℚ × ℚ × ℚ × ℚ) :=
  let N := w.length
  (pydiv ((w.map (fun x => x ^ 2)).sum) N).bind fun w1w2bar =>
  (pydiv ((w.map (fun x => x ^ 4)).sum) N).bind fun w1w2squaredbar =>
  let w1 := w.drop (N / 2)
  let w2 := w.take (N / 2)
  (np_bin (· * ·) (w1.map (fun x => x ^ 2)) (w2.map (fun x => x ^ 2))).bind fun p2 =>
  (pydiv p2.sum ((N : ℚ) / 2)).bind fun w1w2squaredovlbar =>
  (np_bin (· * ·) w1 w2).bind fun p1 =>
  (pydiv p1.sum ((N : ℚ) / 2)).bind fun w1w2ovlbar =>
  some (w1w2bar, w1w2squaredbar, w1w2ovlbar, w1w2squaredovlbar)

/-- Embedding of `calc_rho1` (src/pygwb/util.py lines 44-55):
rho1 = (0.5 * w1w2ovlbar / w1w2bar) ** 2. -/
def calc_rho1 (w : List ℚ) : Option ℚ :=
  (window_factors w).bind fun wf =>
  (pydiv ((1 / 2) * wf.2.2.1) wf.1).bind fun r => some (r ^ 2)

/-- The intermediate quantity `Neff = N_avg_segs * wfactor * Nsegs` of
`calc_bias` (src/pygwb/util.py lines 79-83), with the window family
`win : ℤ → List ℚ` standing for `scipy.signal.get_window` applied to each
integer length: N = int(segmentDuration/deltaT), rho1 = calc_rho1 at the
length-N window, Nsegs = 2*segmentDuration*deltaF - 1,
wfactor = (1 + 2*rho1)⁻¹. -/
def calc_Neff (win : ℤ → List ℚ) (segmentDuration deltaF deltaT N_avg_segs : ℚ) : Option ℚ :=
  (calc_rho1 (win (pyint (segmentDuration / deltaT)))).bind fun rho1 =>
  let Nsegs := 2 * segmentDuration * deltaF - 1
  (pydiv 1 (1 + 2 * rho1)).bind fun wfactor =>
  some (N_avg_segs * wfactor * Nsegs)

/-- Embedding of `calc_bias` (src/pygwb/util.py lines 58-85):
bias = Neff / (Neff - 1), with no domain check of any kind. -/
def calc_bias (win : ℤ → List ℚ) (segmentDuration deltaF deltaT N_avg_segs : ℚ) : Option ℚ :=
  (calc_Neff win segmentDuration deltaF deltaT N_avg_segs).bind fun Neff =>
  pydiv Neff (Neff - 1)

/-- The spec's variant of `calc_bias` (spec §4.2): identical except that
the window length is "N = round(segment_duration / deltaT)", the nearest
integer, instead of the source's truncation.  Stated only to be compared
against the source embedding. -/
def calc_bias_spec_round (win : ℤ → List ℚ) (segmentDuration deltaF deltaT N_avg_segs : ℚ) :
    Option ℚ :=
  (calc_rho1 (win (round_half_up (segmentDuration / deltaT)))).bind fun rho1 =>
  let Nsegs := 2 * segmentDuration * deltaF - 1
  (pydiv 1 (1 + 2 * rho1)).bind fun wfactor =>
  pydiv (N_avg_segs * wfactor * Nsegs) (N_avg_segs * wfactor * Nsegs - 1)

/-- `calc_bias` with the window length supplied explicitly, used to state
which length the source selects. -/
def calc_bias_atN (win : ℤ → List ℚ) (N : ℤ) (segmentDuration deltaF N_avg_segs : ℚ) :
    Option ℚ :=
  (calc_rho1 (win N)).bind fun rho1 =>
  let Nsegs := 2 * segmentDuration * deltaF - 1
  (pydiv 1 (1 + 2 * rho1)).bind fun wfactor =>
  pydiv (N_avg_segs * wfactor * Nsegs) (N_avg_segs * wfactor * Nsegs - 1)

/-- The boxcar (rectangular) window family: `scipy.signal.get_window`
with window_fftgram "boxcar" returns N ones for length N.  A supported
window specification of the pipeline. -/
def boxcarFam : ℤ → List ℚ := fun n => List.replicate n.toNat 1

/-- The symmetric Hann window of length 4 as produced by
`scipy.signal.get_window(("hann",), 4, fftbins=False)`:
w[k] = 1/2 - 1/2*cos(2*pi*k/3) = [0, 3/4, 3/4, 0].  The default window
specification of the pipeline at length 4. -/
def hann4 : List ℚ := [0, 3 / 4, 3 / 4, 0]

/-- Sums of squares of rationals are non-negative. -/
theorem sum_sq_nonneg (l : List ℚ) : 0 ≤ (l.map (fun x => x ^ 2)).sum := by
  induction l with
  | nil => simp
  | cons a t ih => simp only [List.map_cons, List.sum_cons]; positivity

/-- A list with a positive entry has a positive sum of squares. -/
theorem sum_sq_pos (l : List ℚ) (h : ∃ x ∈ l, 0 < x) :
    0 < (l.map (fun x => x ^ 2)).sum := by
  induction l with
  | nil => simp at h
  | cons a t ih =>
    simp only [List.map_cons, List.sum_cons]
    rcases h with ⟨x, hx, hxpos⟩
    rcases List.mem_cons.mp hx with h1 | h2
    · subst h1; have := sum_sq_nonneg t; nlinarith
    · have := ih ⟨x, h2, hxpos⟩; positivity

/-- For entries in [0, 1], fourth powers are pointwise below squares. -/
theorem sum_pow4_le_sum_sq (l : List ℚ) (h : ∀ x ∈ l, 0 ≤ x ∧ x ≤ 1) :
    (l.map (fun x => x ^ 4)).sum ≤ (l.map (fun x => x ^ 2)).sum := by
  induction l with
  | nil => simp
  | cons a t ih =>
    simp only [List.map_cons, List.sum_cons]
    have ha := h a (List.mem_cons_self a t)
    have ht := ih (fun x hx => h x (List.mem_cons_of_mem a hx))
    have h1 : a ^ 2 ≤ 1 := pow_le_one₀ ha.1 ha.2
    nlinarith [sq_nonneg a]

/-- Elementwise AM-GM summed: 2·Σ aᵢbᵢ ≤ Σ aᵢ² + Σ bᵢ². -/
theorem two_sum_zipmul_le (a b : List ℚ) :
    2 * (List.zipWith (· * ·) a b).sum ≤
      (a.map (fun x => x ^ 2)).sum + (b.map (fun x => x ^ 2)).sum := by
  induction a generalizing b with
  | nil => simpa using sum_sq_nonneg b
  | cons x xs ih =>
    cases b with
    | nil =>
      simpa using sum_sq_nonneg (x :: xs)
    | cons y ys =>
      simp only [List.zipWith_cons_cons, List.map_cons, List.sum_cons]
      have := ih ys
      nlinarith [sq_nonneg (x - y)]

/-- For entries in [0, 1]: 2·Σ aᵢ²bᵢ² ≤ Σ aᵢ² + Σ bᵢ². -/
theorem two_sum_zipmulsq_le (a b : List ℚ)
    (ha : ∀ x ∈ a, 0 ≤ x ∧ x ≤ 1) (hb : ∀ x ∈ b, 0 ≤ x ∧ x ≤ 1) :
    2 * (List.zipWith (· * ·) (a.map (fun x => x ^ 2)) (b.map (fun x => x ^ 2))).sum ≤
      (a.map (fun x => x ^ 2)).sum + (b.map (fun x => x ^ 2)).sum := by
  induction a generalizing b with
  | nil => simpa using sum_sq_nonneg b
  | cons x xs ih =>
    cases b with
    | nil =>
      simpa using sum_sq_nonneg (x :: xs)
    | cons y ys =>
      simp only [List.map_cons, List.zipWith_cons_cons, List.sum_cons]
      have hx := ha x (List.mem_cons_self x xs)
      have hy := hb y (List.mem_cons_self y ys)
      have := ih ys (fun u hu => ha u (List.mem_cons_of_mem x hu))
        (fun u hu => hb u (List.mem_cons_of_mem y hu))
      have hx2 : x ^ 2 ≤ 1 := pow_le_one₀ hx.1 hx.2
      have hy2 : y ^ 2 ≤ 1 := pow_le_one₀ hy.1 hy.2
      nlinarith [sq_nonneg x, sq_nonneg y,
        mul_nonneg (sq_nonneg x) (sq_nonneg y)]

/-- An elementwise product of non-negative lists has non-negative sum. -/
theorem zipmul_sum_nonneg (a b : List ℚ)
    (ha : ∀ x ∈ a, 0 ≤ x) (hb : ∀ x ∈ b, 0 ≤ x) :
    0 ≤ (List.zipWith (· * ·) a b).sum := by
  induction a generalizing b with
  | nil => simp
  | cons x xs ih =>
    cases b with
    | nil => simp
    | cons y ys =>
      simp only [List.zipWith_cons_cons, List.sum_cons]
      have := ih ys (fun u hu => ha u (List.mem_cons_of_mem x hu))
        (fun u hu => hb u (List.mem_cons_of_mem y hu))
      have hx := ha x (List.mem_cons_self x xs)
      have hy := hb y (List.mem_cons_self y ys)
      have hxy := mul_nonneg hx hy
      linarith

/-- A mapped sum splits across take/drop. -/
theorem map_sum_split (g : ℚ → ℚ) (k : ℕ) (w : List ℚ) :
    (w.map g).sum = ((w.take k).map g).sum + ((w.drop k).map g).sum := by
  conv_lhs => rw [← List.take_append_drop k w]
  rw [List.map_append, List.sum_append]

/-- C2 counterexample: the default (supported) symmetric Hann window at
N = 4 has w1w2bar = 9/32 and w1w2squaredbar = 81/512, so the claimed
inequality w1w2bar ≤ w1w2squaredbar fails on the source `window_factors`. -/
theorem C2_counterexample :
    window_factors hann4 = some (9 / 32, 81 / 512, 0, 0) ∧
      ¬((9 / 32 : ℚ) ≤ 81 / 512) := by
  norm_num [window_factors, hann4, pydiv, np_bin]

/-- C2 amended: for an even window length N ≥ 2 and window samples in
[0, 1] with at least one positive sample (true of every supported
non-negative scipy window), window_factors succeeds and its four values
satisfy 0 < w1w2bar, w1w2squaredbar ≤ w1w2bar (the source inequality runs
in the opposite direction to the spec's), and both overlap statistics lie
in [0, w1w2bar]. -/
theorem C2_amended (w : List ℚ) (h2 : 2 ≤ w.length) (hev : w.length % 2 = 0)
    (hnn : ∀ x ∈ w, 0 ≤ x ∧ x ≤ 1) (hpos : ∃ x ∈ w, 0 < x) :
    ∃ a b c d, window_factors w = some (a, b, c, d) ∧
      0 < a ∧ b ≤ a ∧ 0 ≤ c ∧ c ≤ a ∧ 0 ≤ d ∧ d ≤ a := by
  have hN0 : ((w.length : ℚ)) ≠ 0 := Nat.cast_ne_zero.mpr (by omega)
  have hNpos : (0 : ℚ) < w.length := by positivity
  have hhalf : (0 : ℚ) < (w.length : ℚ) / 2 := by positivity
  have hlen : (w.drop (w.length / 2)).length = (w.take (w.length / 2)).length := by
    simp only [List.length_drop, List.length_take]
    omega
  have hlen2 : ((w.drop (w.length / 2)).map (fun x => x ^ 2)).length =
      ((w.take (w.length / 2)).map (fun x => x ^ 2)).length := by
    simpa using hlen
  refine ⟨(w.map (fun x => x ^ 2)).sum / w.length, (w.map (fun x => x ^ 4)).sum / w.length,
    (List.zipWith (· * ·) (w.drop (w.length / 2)) (w.take (w.length / 2))).sum /
      ((w.length : ℚ) / 2),
    (List.zipWith (· * ·) ((w.drop (w.length / 2)).map (fun x => x ^ 2))
      ((w.take (w.length / 2)).map (fun x => x ^ 2))).sum / ((w.length : ℚ) / 2),
    ?_, ?_, ?_, ?_, ?_, ?_, ?_⟩
  · rw [window_factors]
    simp only [pydiv, np_bin, hN0, if_false, hlen, hlen2, if_true, if_pos rfl,
      Option.some_bind, ne_eq, div_eq_zero_iff, OfNat.ofNat_ne_zero, or_false]
  · exact div_pos (sum_sq_pos w hpos) hNpos
  · exact (div_le_div_iff_of_pos_right hNpos).mpr (sum_pow4_le_sum_sq w hnn)
  · apply div_nonneg _ (le_of_lt hhalf)
    exact zipmul_sum_nonneg _ _
      (fun x hx => (hnn x (List.drop_subset _ w hx)).1)
      (fun x hx => (hnn x (List.take_subset _ w hx)).1)
  · rw [div_le_div_iff₀ hhalf hNpos]
    have key := two_sum_zipmul_le (w.drop (w.length / 2)) (w.take (w.length / 2))
    have hsplit := map_sum_split (fun x => x ^ 2) (w.length / 2) w
    nlinarith [hNpos]
  · apply div_nonneg _ (le_of_lt hhalf)
    exact zipmul_sum_nonneg _ _
      (fun x hx => by
        rcases List.mem_map.mp hx with ⟨y, _, rfl⟩
        positivity)
      (fun x hx => by
        rcases List.mem_map.mp hx with ⟨y, _, rfl⟩
        positivity)
  · rw [div_le_div_iff₀ hhalf hNpos]
    have key := two_sum_zipmulsq_le (w.drop (w.length / 2)) (w.take (w.length / 2))
      (fun x hx => hnn x (List.drop_subset _ w hx))
      (fun x hx => hnn x (List.take_subset _ w hx))
    have hsplit := map_sum_split (fun x => x ^ 2) (w.length / 2) w
    nlinarith [hNpos]

/-- C2 witness: the amended bounds instantiated at the length-4 symmetric
Hann window. -/
theorem C2_witness :
    ∃ a b c d, window_factors hann4 = some (a, b, c, d) ∧
      0 < a ∧ b ≤ a ∧ 0 ≤ c ∧ c ≤ a ∧ 0 ≤ d ∧ d ≤ a :=
  C2_amended hann4 (by norm_num [hann4]) (by norm_num [hann4])
    (by intro x hx; fin_cases hx <;> norm_num)
    ⟨3 / 4, by norm_num [hann4], by norm_num⟩

/-- C1 counterexample: at segmentDuration = 1, deltaF = 3/4, deltaT = 1/2,
N_avg_segs = 2 with the supported boxcar window, N_effective = 2/3 ≤ 1,
yet `calc_bias` does not fail: it returns the negative bias -2. -/
theorem C1_counterexample :
    calc_Neff boxcarFam 1 (3 / 4) (1 / 2) 2 = some (2 / 3) ∧ ((2 : ℚ) / 3 ≤ 1) ∧
      calc_bias boxcarFam 1 (3 / 4) (1 / 2) 2 = some (-2) ∧ ((-2 : ℚ) < 0) := by
  norm_num [calc_bias, calc_Neff, calc_rho1, window_factors, boxcarFam, pyint,
    pydiv, np_bin, List.replicate]

/-- C1 amended: `calc_bias` performs no domain check.  Whenever
N_effective = 1 exactly, the division raises (ZeroDivisionError /
non-finite result, modelled as `none`); whenever 0 ≤ N_effective < 1 it
silently returns the non-positive value N_effective/(N_effective - 1)
instead of failing. -/
theorem C1_amended (win : ℤ → List ℚ) (s f t n ne : ℚ)
    (h : calc_Neff win s f t n = some ne) :
    (ne = 1 → calc_bias win s f t n = none) ∧
    (0 ≤ ne → ne < 1 → ∃ b, calc_bias win s f t n = some b ∧ b ≤ 0) := by
  have hb : calc_bias win s f t n = pydiv ne (ne - 1) := by
    rw [calc_bias, h, Option.some_bind]
  constructor
  · intro h1
    rw [hb, h1]
    norm_num [pydiv]
  · intro h0 h1
    refine ⟨ne / (ne - 1), ?_, ?_⟩
    · rw [hb, pydiv, if_neg (by intro hc; nlinarith)]
    · exact div_nonpos_of_nonneg_of_nonpos h0 (by linarith)

/-- C1 witness: the amended statement applied at the boxcar configuration
with N_effective = 2/3. -/
theorem C1_witness :
    ∃ b, calc_bias boxcarFam 1 (3 / 4) (1 / 2) 2 = some b ∧ b ≤ 0 :=
  (C1_amended boxcarFam 1 (3 / 4) (1 / 2) 2 (2 / 3)
    (by norm_num [calc_Neff, calc_rho1, window_factors, boxcarFam, pyint,
      pydiv, np_bin, List.replicate])).2 (by norm_num) (by norm_num)

/-- C3 counterexample: with segmentDuration = 3, deltaT = 2 (ratio 3/2)
the source `calc_bias` (truncating `int()`) and the spec's rounding
variant disagree: 10/9 versus 20/17. -/
theorem C3_counterexample :
    calc_bias boxcarFam 3 1 2 2 = some (10 / 9) ∧
      calc_bias_spec_round boxcarFam 3 1 2 2 = some (20 / 17) ∧
      calc_bias boxcarFam 3 1 2 2 ≠ calc_bias_spec_round boxcarFam 3 1 2 2 := by
  refine ⟨?_, ?_, ?_⟩ <;>
    norm_num [calc_bias, calc_Neff, calc_bias_spec_round, calc_rho1, window_factors,
      boxcarFam, pyint, round_half_up, pydiv, np_bin, List.replicate]

/-- C3 amended: `calc_bias` selects the window length
N = int(segmentDuration/deltaT), i.e. truncation toward zero (equal to
the floor for the non-negative ratios of actual configurations), not the
nearest integer. -/
theorem C3_amended (win : ℤ → List ℚ) (s f t n : ℚ) :
    calc_bias win s f t n = calc_bias_atN win (pyint (s / t)) s f n ∧
    (0 ≤ s / t → pyint (s / t) = ⌊s / t⌋) := by
  constructor
  · simp only [calc_bias, calc_Neff, calc_bias_atN]
    cases h1 : calc_rho1 (win (pyint (s / t))) with
    | none => simp
    | some r =>
      simp only [Option.some_bind]
      cases h2 : pydiv 1 (1 + 2 * r) with
      | none => simp
      | some wf => simp
  · intro h
    rw [pyint, if_pos h]

/-- C3 witness: the amended statement at the configuration of the
counterexample, where the selected length is ⌊3/2⌋ = 1. -/
theorem C3_witness :
    (calc_bias boxcarFam 3 1 2 2 = calc_bias_atN boxcarFam (pyint (3 / 2)) 3 1 2 ∧
      pyint ((3 : ℚ) / 2) = ⌊(3 : ℚ) / 2⌋) ∧ pyint ((3 : ℚ) / 2) = 1 := by
  refine ⟨⟨(C3_amended boxcarFam 3 1 2 2).1, ?_⟩, ?_⟩
  · exact (C3_amended boxcarFam 3 1 2 2).2 (by norm_num)
  · norm_num [pyint]

/-- `calc_Neff` is linear in the averaging count: the window/segment part
of N_effective is fixed by the other parameters. -/
theorem calc_Neff_smul (win : ℤ → List ℚ) (s f t n K : ℚ)
    (hK : calc_Neff win s f t 1 = some K) :
    calc_Neff win s f t n = some (n * K) := by
  rw [calc_Neff] at hK ⊢
  cases h1 : calc_rho1 (win (pyint (s / t))) with
  | none => rw [h1] at hK; simp at hK
  | some r =>
    rw [h1] at hK
    simp only [Option.some_bind] at hK ⊢
    cases h2 : pydiv 1 (1 + 2 * r) with
    | none => rw [h2] at hK; simp at hK
    | some wf =>
      rw [h2] at hK
      simp only [Option.some_bind, Option.some.injEq] at hK ⊢
      rw [← hK]; ring

/-- C7: with segment duration, deltaF, deltaT and window fixed, write K
for the per-average-segment part of N_effective (so N_effective of
N_avg_segs = n is n·K).  Wherever the bias is defined in the spec's sense
(N_effective > 1, K > 0), `calc_bias` is strictly decreasing in
N_avg_segs, stays above 1, and tends to 1 as N_avg_segs → ∞. -/
theorem C7_bias_monotone_limit (win : ℤ → List ℚ) (s f t K : ℚ)
    (hK : calc_Neff win s f t 1 = some K) (hKpos : 0 < K) :
    (∀ n n' : ℚ, 1 < n * K → n < n' →
      ∃ b b', calc_bias win s f t n = some b ∧ calc_bias win s f t n' = some b' ∧
        b' < b ∧ 1 < b') ∧
    (∀ ε : ℚ, 0 < ε → ∃ M : ℕ, ∀ m : ℕ, M ≤ m →
      ∃ b, calc_bias win s f t (m : ℚ) = some b ∧ |b - 1| < ε) := by
  have hbias : ∀ n : ℚ, 1 < n * K →
      calc_bias win s f t n = some (n * K / (n * K - 1)) := by
    intro n hn
    rw [calc_bias, calc_Neff_smul win s f t n K hK, Option.some_bind, pydiv,
      if_neg (by intro hc; nlinarith)]
  constructor
  · intro n n' hn hlt
    have hmul : n * K < n' * K := (mul_lt_mul_right hKpos).mpr hlt
    have hn' : 1 < n' * K := lt_trans hn hmul
    refine ⟨_, _, hbias n hn, hbias n' hn', ?_, ?_⟩
    · rw [div_lt_div_iff₀ (by linarith) (by linarith)]
      nlinarith
    · rw [lt_div_iff₀ (by linarith)]
      linarith
  · intro ε hε
    obtain ⟨M, hM⟩ := exists_nat_gt ((1 / ε + 1) / K)
    refine ⟨M, fun m hm => ?_⟩
    have hmM : ((1 / ε + 1) / K) < (m : ℚ) :=
      lt_of_lt_of_le hM (by exact_mod_cast hm)
    have hinv : (0 : ℚ) < 1 / ε := by positivity
    have h1 : 1 / ε + 1 < (m : ℚ) * K := by
      rw [div_lt_iff₀ hKpos] at hmM
      linarith
    have h2 : 1 < (m : ℚ) * K := by linarith
    refine ⟨_, hbias m h2, ?_⟩
    have hne : (m : ℚ) * K - 1 ≠ 0 := by intro hc; nlinarith
    have hd : (m : ℚ) * K / ((m : ℚ) * K - 1) - 1 = 1 / ((m : ℚ) * K - 1) := by
      field_simp
    rw [hd, abs_of_pos (div_pos one_pos (by linarith)), div_lt_iff₀ (by linarith)]
    have hlt : 1 / ε < (m : ℚ) * K - 1 := by linarith
    calc (1 : ℚ) = ε * (1 / ε) := by field_simp
    _ < ε * ((m : ℚ) * K - 1) := by exact (mul_lt_mul_left hε).mpr hlt

/-- C7 witness: at segmentDuration = 3, deltaF = 1, deltaT = 2 with the
boxcar window, K = 5 and the bias strictly decreases from N_avg_segs = 1
to N_avg_segs = 2 while staying above 1. -/
theorem C7_witness :
    ∃ b b', calc_bias boxcarFam 3 1 2 1 = some b ∧ calc_bias boxcarFam 3 1 2 2 = some b' ∧
      b' < b ∧ 1 < b' :=
  (C7_bias_monotone_limit boxcarFam 3 1 2 5
    (by norm_num [calc_Neff, calc_rho1, window_factors, boxcarFam, pyint,
      pydiv, np_bin, List.replicate])
    (by norm_num)).1 1 2 (by norm_num) (by norm_num)

/-- C9 counterexample: the supported boxcar window at the odd length
N = 5 is not accepted: the two halves have lengths 3 and 2, the numpy
elementwise product raises a broadcast ValueError, and `window_factors`
fails instead of truncating. -/
theorem C9_counterexample :
    window_factors (List.replicate 5 (1 : ℚ)) = none := by
  norm_num [window_factors, pydiv, np_bin, List.replicate]

/-- C9 amended: for every odd window length N ≥ 5 `window_factors`
raises a broadcast error (`none`); at N = 3 it is accepted, but the
length-1 second half w2 = [w[0]] is numpy-broadcast across the length-2
first half w1 = [w[1], w[2]] rather than both halves being truncated to
the shorter length. -/
theorem C9_amended :
    (∀ w : List ℚ, 5 ≤ w.length → w.length % 2 = 1 → window_factors w = none) ∧
    (∀ x0 x1 x2 : ℚ, window_factors [x0, x1, x2] =
      some ((x0 ^ 2 + x1 ^ 2 + x2 ^ 2) / 3, (x0 ^ 4 + x1 ^ 4 + x2 ^ 4) / 3,
        2 * (x1 * x0 + x2 * x0) / 3, 2 * (x1 ^ 2 * x0 ^ 2 + x2 ^ 2 * x0 ^ 2) / 3)) := by
  constructor
  · intro w h5 hodd
    rw [window_factors]
    have hN0 : ((w.length : ℚ)) ≠ 0 := Nat.cast_ne_zero.mpr (by omega)
    simp only [pydiv, hN0, if_false, Option.some_bind, np_bin, List.length_map,
      List.length_drop, List.length_take]
    rw [if_neg (by omega), if_neg (by omega), if_neg (by omega)]
    rfl
  · intro x0 x1 x2
    rw [window_factors]
    norm_num [pydiv, np_bin]
    refine ⟨?_, ?_, ?_, ?_⟩ <;> ring

/-- C9 witness: the boxcar window errors at the odd length 7, and at
length 3 the all-ones window yields the broadcast (not truncated) overlap
statistics 4/3 > 1. -/
theorem C9_witness :
    window_factors (List.replicate 7 (1 : ℚ)) = none ∧
      window_factors [(1 : ℚ), 1, 1] = some (1, 1, 4 / 3, 4 / 3) := by
  constructor
  · exact C9_amended.1 (List.replicate 7 1) (by norm_num [List.replicate])
      (by norm_num [List.replicate])
  · rw [C9_amended.2 1 1 1]
    norm_num

/-- numpy fancy-index assignment `A[idxs] = v` on one axis: each listed
index is set to `v` in turn.  Models the notch-masking assignments
`Y_fs[:, indices_notches] = 0` and `var_fs[:, indices_notches] = np.Inf`
of src/pyGWB_Pipeline.py lines 168-169. -/
def setIndices {n : ℕ} {α : Type} (v : α) (idxs : List (Fin n)) (A : Fin n → α) : Fin n → α :=
  idxs.foldl (fun acc i => Function.update acc i v) A

/-- Pointwise description of `setIndices`. -/
theorem setIndices_apply {n : ℕ} {α : Type} (v : α) (idxs : List (Fin n)) (A : Fin n → α)
    (j : Fin n) : setIndices v idxs A j = if j ∈ idxs then v else A j := by
  induction idxs generalizing A with
  | nil => simp [setIndices]
  | cons i is ih =>
    show (is.foldl (fun acc k => Function.update acc k v) (Function.update A i v)) j = _
    rw [show (is.foldl (fun acc k => Function.update acc k v) (Function.update A i v)) =
      setIndices v is (Function.update A i v) from rfl, ih]
    by_cases hj : j ∈ is
    · simp [hj, List.mem_cons]
    · simp only [hj, if_false, Function.update_apply, List.mem_cons, or_false]

/-- The masking step applied to the 2-d point-estimate array Y_fs
(segment-time × frequency): flagged frequency bins are set to 0 in every
row. -/
def notch_mask_Y {T F : ℕ} (idxs : List (Fin F)) (Y : Fin T → Fin F → ℚ) :
    Fin T → Fin F → ℚ :=
  fun t => setIndices 0 idxs (Y t)

/-- The masking step applied to the 2-d variance array var_fs: flagged
frequency bins are set to np.Inf (the top element of `WithTop ℚ`) in
every row. -/
def notch_mask_var {T F : ℕ} (idxs : List (Fin F)) (V : Fin T → Fin F → WithTop ℚ) :
    Fin T → Fin F → WithTop ℚ :=
  fun t => setIndices ⊤ idxs (V t)

/-- C6: after the masking step the point estimate is exactly 0 and the
variance exactly +∞ at every flagged frequency index, in every time row,
while every non-flagged entry of both arrays is numerically identical to
its pre-masking value. -/
theorem C6_veto_masking {T F : ℕ} (idxs : List (Fin F)) (Y : Fin T → Fin F → ℚ)
    (V : Fin T → Fin F → WithTop ℚ) (t : Fin T) (f : Fin F) :
    (f ∈ idxs → notch_mask_Y idxs Y t f = 0 ∧ notch_mask_var idxs V t f = ⊤) ∧
    (f ∉ idxs → notch_mask_Y idxs Y t f = Y t f ∧ notch_mask_var idxs V t f = V t f) := by
  constructor
  · intro hf
    constructor
    · rw [notch_mask_Y, setIndices_apply, if_pos hf]
    · rw [notch_mask_var, setIndices_apply, if_pos hf]
  · intro hf
    constructor
    · rw [notch_mask_Y, setIndices_apply, if_neg hf]
    · rw [notch_mask_var, setIndices_apply, if_neg hf]

/-- C6 witness: a 1 × 2 array with bin 0 flagged: the flagged bin becomes
(0, +∞) and the unflagged bin keeps its original values. -/
theorem C6_witness :
    (notch_mask_Y [(0 : Fin 2)] (fun _ _ => (5 : ℚ)) (0 : Fin 1) 0 = 0 ∧
      notch_mask_var [(0 : Fin 2)] (fun _ _ => ((3 : ℚ) : WithTop ℚ)) (0 : Fin 1) 0 = ⊤) ∧
    (notch_mask_Y [(0 : Fin 2)] (fun _ _ => (5 : ℚ)) (0 : Fin 1) 1 = 5 ∧
      notch_mask_var [(0 : Fin 2)] (fun _ _ => ((3 : ℚ) : WithTop ℚ)) (0 : Fin 1) 1 =
        ((3 : ℚ) : WithTop ℚ)) := by
  constructor
  · exact (C6_veto_masking [(0 : Fin 2)] (fun _ _ => (5 : ℚ))
      (fun _ _ => ((3 : ℚ) : WithTop ℚ)) 0 0).1 (by simp)
  · exact (C6_veto_masking [(0 : Fin 2)] (fun _ _ => (5 : ℚ))
      (fun _ _ => ((3 : ℚ) : WithTop ℚ)) 0 1).2 (by simp)

/-- The Python exception kinds surfaced by `Simulator.__init__`
(src/pygwb/simulator.py lines 20-89). -/
inductive PyError where
  | valueError
  | attributeError
  | nameError
  deriving DecidableEq

/-- The names bound in the local scope of `Simulator.__init__` at the
point where the `no_noise` branch executes (its parameters and the loop
variable), transcribed from src/pygwb/simulator.py lines 20-76. -/
def simulator_init_local_names : List String :=
  ["self", "interferometers", "intensity_GW", "N_segments", "duration",
   "sampling_frequency", "start_time", "save_to_file", "no_noise", "ifo"]

/-- The module-level names of src/pygwb/simulator.py (imports and the
class itself), the global scope for name resolution inside `__init__`;
Python builtins bind no name resembling `noise_PSD_array` either. -/
def simulator_module_names : List String :=
  ["sys", "bilby", "gwpy", "h5py", "np", "create_frequency_series", "Baseline",
   "H0", "get_baselines", "interpolate_frequency_series", "configparser",
   "Simulator"]

/-- Python name resolution for a bare (non-attribute) name inside
`Simulator.__init__`: local scope, then module globals. -/
def py_name_bound (n : String) : Bool :=
  simulator_init_local_names.contains n || simulator_module_names.contains n

/-- Control-flow embedding of `Simulator.__init__`
(src/pygwb/simulator.py lines 20-89): fewer than two interferometers
raise ValueError; the noise-PSD retrieval (`get_noise_PSD_array`, which
may itself raise) runs next; then, if `no_noise` is true, line 78
evaluates the bare name `noise_PSD_array` — which resolves in no scope,
so a NameError is raised; the remaining construction steps (baselines,
orf, interpolation, modelled by `restStep`) follow. -/
def simulator_init (numIfos : ℕ) (psdStep : Except PyError (List (List ℚ)))
    (restStep : Except PyError Unit) (no_noise : Bool) :
    Except PyError (List (List ℚ)) :=
  if numIfos < 2 then .error .valueError
  else
    psdStep.bind fun psd =>
      (if no_noise then
        (if py_name_bound "noise_PSD_array" then
          Except.ok (psd.map (List.map fun _ => (0 : ℚ)))
        else Except.error PyError.nameError)
       else Except.ok psd).bind fun psdFinal =>
      restStep.bind fun _ => Except.ok psdFinal

/-- C10: with at least two interferometers and a successful noise-PSD
retrieval, constructing a Simulator with no_noise = True raises NameError
(the zeroing branch references the unbound name `noise_PSD_array`), and
for every outcome of the other steps the construction never succeeds, so
a Simulator with zeroed noise PSDs can never be obtained through this
flag. -/
theorem C10_no_noise_name_error (numIfos : ℕ) (psdStep : Except PyError (List (List ℚ)))
    (restStep : Except PyError Unit) :
    (∀ psd, 2 ≤ numIfos → psdStep = .ok psd →
      simulator_init numIfos psdStep restStep true = .error .nameError) ∧
    (∀ r, simulator_init numIfos psdStep restStep true ≠ .ok r) := by
  have hname : py_name_bound "noise_PSD_array" = false := by decide
  constructor
  · intro psd h2 hpsd
    rw [simulator_init, if_neg (by omega), hpsd]
    simp [Except.bind, hname]
  · intro r
    rw [simulator_init]
    by_cases h : numIfos < 2
    · simp [h]
    · rw [if_neg h]
      cases psdStep with
      | error e => simp [Except.bind]
      | ok psd => simp [Except.bind, hname]

/-- C10 witness: two interferometers with available noise PSDs and
no_noise = True yield NameError. -/
theorem C10_witness :
    simulator_init 2 (Except.ok [[1], [1]]) (Except.ok ()) true =
      Except.error PyError.nameError :=
  (C10_no_noise_name_error 2 (Except.ok [[1], [1]]) (Except.ok ())).1
    [[1], [1]] (by norm_num) rfl

/-- Position of the pair (ii, jj), jj < ii, in the packed strictly-lower-
triangular ORF list of `orf_to_array` (src/pygwb/simulator.py lines
170-200): rows are filled left to right, top to bottom, so row ii starts
after ii*(ii-1)/2 earlier entries. -/
def tri_index (ii jj : ℕ) : ℕ := ii * (ii - 1) / 2 + jj

/-- The strictly-lower-triangular ORF array before mirroring: entry
(ii, jj) holds the packed ORF for jj < ii and the zero series otherwise.
`orf_to_array` then adds the transpose, giving
orf_array ii jj = orf_lower ii jj + orf_lower jj ii. -/
def orf_lower (orfs : List (ℕ → ℝ)) (ii jj : ℕ) : ℕ → ℝ :=
  if jj < ii then orfs.getD (tri_index ii jj) (fun _ => 0) else fun _ => 0

/-- The flooring step `C[C == 0.0] = 1.0e-45` of `covariance_matrix`
(src/pygwb/simulator.py line 227), applied entrywise. -/
noncomputable def np_floor_zero (x : ℝ) : ℝ := if x = 0 then 1 / 10 ^ 45 else x

/-- Embedding of `covariance_matrix` (src/pygwb/simulator.py lines
202-229) with the object's attributes as parameters: diagonal entries are
noise PSD plus GW power, off-diagonal entries are the mirrored packed ORF
times the GW power, exact zeros are floored to 1e-45, and the whole
tensor is scaled by N_samples_per_segment / (deltaT * 4). -/
noncomputable def covariance_matrix (noise : ℕ → ℕ → ℝ) (gw : ℕ → ℝ)
    (orfs : List (ℕ → ℝ)) (Nsamp : ℕ) (deltaT : ℝ) : ℕ → ℕ → ℕ → ℝ :=
  fun ii jj ff =>
    (Nsamp : ℝ) / (deltaT * 4) *
      np_floor_zero (if ii = jj then noise ii ff + gw ff
        else (orf_lower orfs ii jj ff + orf_lower orfs jj ii ff) * gw ff)

/-- C5 counterexample: at sampling frequency 1 Hz and duration 2 s
(N_samples_per_segment = 2, deltaT = 1) the scale factor is 1/2, so with
unit noise PSD and zero GW power the diagonal covariance entry is 1/2,
strictly below the noise-only PSD value 1. -/
theorem C5_counterexample :
    covariance_matrix (fun _ _ => (1 : ℝ)) (fun _ => 0) [fun _ => 0] 2 1 0 0 0 < 1 := by
  rw [covariance_matrix, np_floor_zero]
  norm_num

/-- C5 amended: the covariance tensor is symmetric in the detector
indices, and for non-negative noise and GW inputs each diagonal entry is
at least the scale factor N_samples_per_segment/(4·deltaT) times the
noise-only PSD value (hence at least the raw noise PSD exactly when the
scale factor is ≥ 1; the unscaled comparison of the claim fails when it
is < 1). -/
theorem C5_amended (noise : ℕ → ℕ → ℝ) (gw : ℕ → ℝ) (orfs : List (ℕ → ℝ))
    (Nsamp : ℕ) (deltaT : ℝ) (hdt : 0 < deltaT)
    (ii jj ff : ℕ) (hnoise : 0 ≤ noise ii ff) (hgw : 0 ≤ gw ff) :
    covariance_matrix noise gw orfs Nsamp deltaT ii jj ff =
      covariance_matrix noise gw orfs Nsamp deltaT jj ii ff ∧
    (Nsamp : ℝ) / (deltaT * 4) * noise ii ff ≤
      covariance_matrix noise gw orfs Nsamp deltaT ii ii ff := by
  have hs : 0 ≤ (Nsamp : ℝ) / (deltaT * 4) := by positivity
  constructor
  · rw [covariance_matrix, covariance_matrix]
    by_cases h : ii = jj
    · rw [h]
    · rw [if_neg h, if_neg (fun hc => h hc.symm)]
      ring_nf
  · rw [covariance_matrix, if_pos rfl, np_floor_zero]
    by_cases h : noise ii ff + gw ff = 0
    · rw [if_pos h]
      have h1 : noise ii ff = 0 := by linarith
      rw [h1, mul_zero]
      positivity
    · rw [if_neg h]
      have := mul_le_mul_of_nonneg_left (by linarith : noise ii ff ≤ noise ii ff + gw ff) hs
      linarith

/-- C5 witness: the amended statement at the counterexample's
configuration, where the diagonal bound scale·noise = 1/2 is attained. -/
theorem C5_witness :
    covariance_matrix (fun _ _ => (1 : ℝ)) (fun _ => 0) [fun _ => 0] 2 1 0 1 0 =
      covariance_matrix (fun _ _ => (1 : ℝ)) (fun _ => 0) [fun _ => 0] 2 1 1 0 0 ∧
    (2 : ℝ) / (1 * 4) * 1 ≤
      covariance_matrix (fun _ _ => (1 : ℝ)) (fun _ => 0) [fun _ => 0] 2 1 0 0 0 := by
  have h := C5_amended (fun _ _ => (1 : ℝ)) (fun _ => 0) [fun _ => 0] 2 1
    (by norm_num) 0 1 0 (by norm_num) (by norm_num)
  exact ⟨h.1, by exact_mod_cast h.2⟩

/-- A Python loop collecting per-iteration results, aborting on the first
raised exception (`none`). -/
def optList {α β : Type} (f : α → Option β) : List α → Option (List β)
  | [] => some []
  | a :: as => (f a).bind fun b => (optList f as).bind fun bs => some (b :: bs)

/-- If every iteration succeeds with a result satisfying P, the collected
list succeeds, has one entry per iteration, and all entries satisfy P. -/
theorem optList_forall {α β : Type} (f : α → Option β) (P : β → Prop) :
    ∀ l : List α, (∀ a ∈ l, ∃ b, f a = some b ∧ P b) →
      ∃ bs, optList f l = some bs ∧ bs.length = l.length ∧ ∀ b ∈ bs, P b := by
  intro l
  induction l with
  | nil => intro _; exact ⟨[], rfl, rfl, by simp⟩
  | cons a as ih =>
    intro h
    obtain ⟨b, hb, hPb⟩ := h a (List.mem_cons_self a as)
    obtain ⟨bs, hbs, hlen, hP⟩ := ih (fun x hx => h x (List.mem_cons_of_mem a hx))
    refine ⟨b :: bs, ?_, by simp [hlen], ?_⟩
    · rw [optList, hb, Option.some_bind, hbs, Option.some_bind]
    · intro c hc
      rcases List.mem_cons.mp hc with rfl | hc2
      · exact hPb
      · exact hP c hc2

/-- `np_bin` on arrays of equal length is the pointwise operation. -/
theorem np_bin_eq_len {α : Type} [Inhabited α] (f : α → α → α) (a b : List α)
    (h : a.length = b.length) : np_bin f a b = some (List.zipWith f a b) := by
  rw [np_bin, if_pos h]

/-- `np_bin` raises on a shape mismatch with no length-1 operand. -/
theorem np_bin_none {α : Type} [Inhabited α] (f : α → α → α) (a b : List α)
    (h1 : a.length ≠ b.length) (h2 : a.length ≠ 1) (h3 : b.length ≠ 1) :
    np_bin f a b = none := by
  rw [np_bin, if_neg h1, if_neg h2, if_neg h3]

/-- Flattening a list of constant-length lists. -/
theorem flatten_length_const {α : Type} (N : ℕ) :
    ∀ ls : List (List α), (∀ l ∈ ls, l.length = N) →
      ls.flatten.length = ls.length * N := by
  intro ls
  induction ls with
  | nil => simp
  | cons l t ih =>
    intro h
    simp only [List.flatten_cons, List.length_append, List.length_cons]
    rw [h l (List.mem_cons_self l t), ih (fun x hx => h x (List.mem_cons_of_mem l hx))]
    ring

/-- The half-sine taper w[i] = sin(pi*i/N) built at the start of
`splice_segments` (src/pygwb/simulator.py lines 370-373). -/
noncomputable def splice_taper (N : ℕ) : List ℝ :=
  (List.range N).map fun i : ℕ => Real.sin (Real.pi * i / N)

/-- One output chunk of `splice_segments` (src/pygwb/simulator.py lines
379-410): y0, y1, y2 are the tapered segments 2j, 2j+1, 2j+2;
z0 = second half of y0 padded with N/2 zeros, z1 = y1, z2 = N/2 zeros
followed by the first half of y2; the chunk is z0 + z1 + z2 (numpy
elementwise adds), and the assignment into data[jj*N:(jj+1)*N] requires
the result to have length N. -/
noncomputable def splice_chunk (N : ℕ) (w s0 s1 s2 : List ℝ) : Option (List ℝ) :=
  (np_bin (· * ·) w s0).bind fun y0 =>
  (np_bin (· * ·) w s1).bind fun y1 =>
  (np_bin (· * ·) w s2).bind fun y2 =>
  (np_bin (· + ·) (y0.drop (N / 2) ++ List.replicate (N / 2) 0) y1).bind fun s01 =>
  (np_bin (· + ·) s01 (List.replicate (N / 2) (0 : ℝ) ++ y2.take (N / 2))).bind fun sall =>
  if sall.length = N then some sall else none

/-- Embedding of `splice_segments` (src/pygwb/simulator.py lines
350-412): for each detector, the N_segments output chunks are computed
and laid out contiguously. -/
noncomputable def splice_segments (N_segments N : ℕ) (segments : List (List (List ℝ))) :
    Option (List (List ℝ)) :=
  optList (fun det =>
    (optList (fun jj => splice_chunk N (splice_taper N) (det.getD (2 * jj) [])
      (det.getD (2 * jj + 1) []) (det.getD (2 * jj + 2) []))
      (List.range N_segments)).map fun chunks => chunks.flatten) segments

/-- The taper has one weight per sample. -/
theorem splice_taper_length (N : ℕ) : (splice_taper N).length = N := by
  rw [splice_taper, List.length_map, List.length_range]

/-- C8 counterexample: one detector with 3 segments of odd length N = 3:
z0 + z1 has length 3 but z2 has length 2, the numpy add raises a
broadcast ValueError, and `splice_segments` fails instead of returning
arrays of length N_segments·N. -/
theorem C8_counterexample :
    splice_segments 1 3 [[[0, 0, 0], [0, 0, 0], [0, 0, 0]]] = none := by
  have htap := splice_taper_length 3
  have hchunk : splice_chunk 3 (splice_taper 3) [0, 0, 0] [0, 0, 0] [0, 0, 0] = none := by
    rw [splice_chunk]
    rw [np_bin_eq_len _ _ _ (by simp [htap])]
    simp only [Option.some_bind]
    rw [np_bin_eq_len _ _ _ (by simp [List.length_zipWith, htap])]
    simp only [Option.some_bind]
    rw [np_bin_none _ _ _ (by simp [List.length_zipWith, htap])
      (by simp [List.length_zipWith, htap]) (by simp [List.length_zipWith, htap])]
    rfl
  rw [splice_segments]
  simp [optList, hchunk]

/-- C8 amended: for EVEN segment length N, `splice_segments` on Nd
detectors of 2·N_segments+1 segments of length N returns exactly Nd
arrays, each of length N_segments·N (in the real-number semantics of this
embedding every produced value is a finite combination of inputs, so no
non-finite value can appear); for odd N the numpy adds fail instead. -/
theorem C8_amended (N_segments N : ℕ) (hN : N % 2 = 0)
    (segments : List (List (List ℝ)))
    (hdet : ∀ det ∈ segments, det.length = 2 * N_segments + 1 ∧ ∀ s ∈ det, s.length = N) :
    ∃ out, splice_segments N_segments N segments = some out ∧
      out.length = segments.length ∧ ∀ l ∈ out, l.length = N_segments * N := by
  have htap := splice_taper_length N
  have hchunk : ∀ s0 s1 s2 : List ℝ, s0.length = N → s1.length = N → s2.length = N →
      ∃ l, splice_chunk N (splice_taper N) s0 s1 s2 = some l ∧ l.length = N := by
    intro s0 s1 s2 h0 h1 h2
    rw [splice_chunk]
    rw [np_bin_eq_len _ _ _ (by rw [htap, h0])]
    simp only [Option.some_bind]
    rw [np_bin_eq_len _ _ _ (by rw [htap, h1])]
    simp only [Option.some_bind]
    rw [np_bin_eq_len _ _ _ (by rw [htap, h2])]
    simp only [Option.some_bind]
    have lz0 : ((List.zipWith (· * ·) (splice_taper N) s0).drop (N / 2) ++
        List.replicate (N / 2) (0 : ℝ)).length = N := by
      simp [List.length_zipWith, htap, h0]
      omega
    have ly1 : (List.zipWith (· * ·) (splice_taper N) s1).length = N := by
      simp [List.length_zipWith, htap, h1]
    have lz2 : (List.replicate (N / 2) (0 : ℝ) ++
        (List.zipWith (· * ·) (splice_taper N) s2).take (N / 2)).length = N := by
      simp [List.length_zipWith, htap, h2]
      omega
    rw [np_bin_eq_len _ _ _ (by rw [lz0, ly1])]
    simp only [Option.some_bind]
    have ls01 : (List.zipWith (· + ·)
        ((List.zipWith (· * ·) (splice_taper N) s0).drop (N / 2) ++
          List.replicate (N / 2) (0 : ℝ))
        (List.zipWith (· * ·) (splice_taper N) s1)).length = N := by
      simp [List.length_zipWith, lz0, ly1]
    rw [np_bin_eq_len _ _ _ (by rw [ls01, lz2])]
    simp only [Option.some_bind]
    have lsall : (List.zipWith (· + ·)
        (List.zipWith (· + ·)
          ((List.zipWith (· * ·) (splice_taper N) s0).drop (N / 2) ++
            List.replicate (N / 2) (0 : ℝ))
          (List.zipWith (· * ·) (splice_taper N) s1))
        (List.replicate (N / 2) (0 : ℝ) ++
          (List.zipWith (· * ·) (splice_taper N) s2).take (N / 2))).length = N := by
      simp [List.length_zipWith, ls01, lz2]
    rw [if_pos lsall]
    exact ⟨_, rfl, lsall⟩
  rw [splice_segments]
  apply optList_forall _ (fun l : List ℝ => l.length = N_segments * N)
  intro det hdetmem
  obtain ⟨hdlen, hslen⟩ := hdet det hdetmem
  have hget : ∀ k, k < 2 * N_segments + 1 → (det.getD k []).length = N := by
    intro k hk
    apply hslen
    have hklt : k < det.length := by omega
    rw [List.getD_eq_getElem det [] hklt]
    exact List.getElem_mem hklt
  have harg : ∀ jj ∈ List.range N_segments,
      ∃ b, splice_chunk N (splice_taper N) (det.getD (2 * jj) [])
        (det.getD (2 * jj + 1) []) (det.getD (2 * jj + 2) []) = some b ∧
        (fun l : List ℝ => l.length = N) b := by
    intro jj hjj
    have hjlt : jj < N_segments := List.mem_range.mp hjj
    exact hchunk _ _ _ (hget _ (by omega)) (hget _ (by omega)) (hget _ (by omega))
  obtain ⟨chunks, hc, hclen, hcall⟩ := optList_forall _ _ _ harg
  refine ⟨chunks.flatten, ?_, ?_⟩
  · rw [hc]; rfl
  · rw [flatten_length_const N chunks hcall, hclen, List.length_range]

/-- C8 witness: one detector, three segments of even length 2, spliced
into one array of length 1·2 = 2. -/
theorem C8_witness :
    ∃ out, splice_segments 1 2 [[[1, 2], [3, 4], [5, 6]]] = some out ∧
      out.length = 1 ∧ ∀ l ∈ out, l.length = 1 * 2 := by
  have h := C8_amended 1 2 rfl [[[1, 2], [3, 4], [5, 6]]] ?_
  · obtain ⟨out, h1, h2, h3⟩ := h
    exact ⟨out, h1, by simpa using h2, h3⟩
  · intro det hdet
    rcases List.mem_singleton.mp hdet with rfl
    refine ⟨rfl, ?_⟩
    intro s hs
    rcases List.mem_cons.mp hs with rfl | hs2
    · rfl
    rcases List.mem_cons.mp hs2 with rfl | hs3
    · rfl
    rcases List.mem_cons.mp hs3 with rfl | hs4
    · rfl
    · simp at hs4

/-- The einsum pair of `transform_to_correlated_data`
(src/pygwb/simulator.py lines 275-299): with eigval the diagonal
matrices lam and eigvec columns V, A[f,j,k] = sqrt(lam f j)·V f k j and
x[f,k] = sum_j z[f,j]·A[f,j,k]. -/
noncomputable def transform_xtemp (Nd : ℕ) (lam : ℕ → ℕ → ℝ) (V : ℕ → ℕ → ℕ → ℝ)
    (z : ℕ → ℕ → ℂ) (f k : ℕ) : ℂ :=
  ∑ j in Finset.range Nd, z f j * (Real.sqrt (lam f j) : ℂ) * (V f k j : ℂ)

/-- The Hermitian assembly of the one-sided spectrum in `simulate_data`
(src/pygwb/simulator.py lines 327-344): a zero is prepended, a second
zero inserted before the mirrored conjugate for even sample counts. -/
noncomputable def make_xtilde (Nsamp : ℕ) (col : List ℂ) : List ℂ :=
  if Nsamp % 2 = 0 then [0] ++ col ++ [0] ++ (col.map (starRingEnd ℂ)).reverse
  else [0] ++ col ++ (col.map (starRingEnd ℂ)).reverse

/-- `numpy.fft.ifft` by its defining formula:
ifft(x)[n] = (1/L)·sum_k x[k]·exp(2·pi·i·k·n/L), L = len(x). -/
noncomputable def np_ifft (x : List ℂ) : List ℂ :=
  (List.range x.length).map fun n : ℕ =>
    (∑ k in Finset.range x.length, x.getD k 0 *
      Complex.exp (2 * (Real.pi : ℂ) * Complex.I * k * n / x.length)) / x.length

/-- Embedding of `simulate_data` (src/pygwb/simulator.py lines 301-348)
with the eigendecomposition (lam, V) of the covariance and the random
frequency-domain draws z (indexed segment, frequency, detector) as
parameters: for each detector and each of the 2·N_segments+1 segments,
the colored spectrum column is Hermitian-assembled, inverse-transformed,
and the real part truncated to N_samples_per_segment. -/
noncomputable def simulate_data (Nd Nf N_segments Nsamp : ℕ) (lam : ℕ → ℕ → ℝ)
    (V : ℕ → ℕ → ℕ → ℝ) (z : ℕ → ℕ → ℕ → ℂ) : List (List (List ℝ)) :=
  (List.range Nd).map fun ii =>
    (List.range (2 * N_segments + 1)).map fun kk =>
      ((np_ifft (make_xtilde Nsamp ((List.range Nf).map fun f : ℕ =>
        transform_xtemp Nd lam V (z kk) f ii))).map Complex.re).take Nsamp

/-- The documented contract of `numpy.linalg.eig` as used by
`compute_eigval_eigvec` (src/pygwb/simulator.py lines 231-254): for each
frequency, every column j of V is a normalized eigenvector of the
covariance matrix with eigenvalue lam: C·v = lam·v and |v| = 1. -/
def eig_contract (Nd Nf : ℕ) (C : ℕ → ℕ → ℕ → ℝ) (lam : ℕ → ℕ → ℝ)
    (V : ℕ → ℕ → ℕ → ℝ) : Prop :=
  ∀ ff < Nf, ∀ j < Nd,
    (∀ k < Nd, (∑ m in Finset.range Nd, C k m ff * V ff m j) = lam ff j * V ff k j) ∧
    (∑ k in Finset.range Nd, (V ff k j) ^ 2) = 1

/-- Every sample of every detector's output is exactly zero. -/
def all_zero_data (d : List (List ℝ)) : Prop := ∀ l ∈ d, ∀ x ∈ l, x = 0

/-- With zero noise and zero GW power every raw covariance entry is zero,
so the flooring step replaces all of them by 1e-45 before scaling. -/
theorem cov_zero_inputs_const (orfs : List (ℕ → ℝ)) (Nsamp : ℕ) (deltaT : ℝ)
    (ii jj ff : ℕ) :
    covariance_matrix (fun _ _ => 0) (fun _ => 0) orfs Nsamp deltaT ii jj ff =
      (Nsamp : ℝ) / (deltaT * 4) * (1 / 10 ^ 45) := by
  rw [covariance_matrix]
  by_cases h : ii = jj
  · rw [if_pos h]
    norm_num [np_floor_zero]
  · rw [if_neg h]
    norm_num [np_floor_zero]

/-- Reading an all-zero list at any index (in or out of range) gives 0. -/
theorem getD_zero_of_all_zero (l : List ℂ) (h : ∀ x ∈ l, x = 0) (k : ℕ) :
    l.getD k 0 = 0 := by
  by_cases hk : k < l.length
  · rw [List.getD_eq_getElem l 0 hk]
    exact h _ (List.getElem_mem hk)
  · exact List.getD_eq_default l 0 (by omega)

/-- Under the zero draw the whole per-segment pipeline (coloring,
Hermitian assembly, inverse transform, truncation) produces the zero
segment of length N_samples_per_segment. -/
theorem zero_draw_segment (Nd Nf Nsamp : ℕ) (lam : ℕ → ℕ → ℝ) (V : ℕ → ℕ → ℕ → ℝ)
    (heven : Nsamp % 2 = 0) (hle : Nsamp ≤ 2 * Nf + 2) (ii : ℕ) :
    (((np_ifft (make_xtilde Nsamp ((List.range Nf).map fun f : ℕ =>
        transform_xtemp Nd lam V (fun _ _ => 0) f ii))).map Complex.re).take Nsamp).length
        = Nsamp ∧
    ∀ x ∈ ((np_ifft (make_xtilde Nsamp ((List.range Nf).map fun f : ℕ =>
        transform_xtemp Nd lam V (fun _ _ => 0) f ii))).map Complex.re).take Nsamp, x = 0 := by
  have hcol0 : ∀ x ∈ (List.range Nf).map fun f : ℕ =>
      transform_xtemp Nd lam V (fun _ _ => 0) f ii, x = 0 := by
    intro x hx
    rcases List.mem_map.mp hx with ⟨f, _, rfl⟩
    simp [transform_xtemp]
  have hcollen : ((List.range Nf).map fun f : ℕ =>
      transform_xtemp Nd lam V (fun _ _ => 0) f ii).length = Nf := by
    rw [List.length_map, List.length_range]
  have hxt0 : ∀ x ∈ make_xtilde Nsamp ((List.range Nf).map fun f : ℕ =>
      transform_xtemp Nd lam V (fun _ _ => 0) f ii), x = 0 := by
    rw [make_xtilde, if_pos heven]
    intro x hx
    simp only [List.append_assoc, List.mem_append, List.mem_singleton,
      List.mem_reverse, List.mem_map] at hx
    rcases hx with h1 | h1 | h1 | ⟨y, ⟨f, _, rfl⟩, rfl⟩
    · exact h1
    · rcases h1 with ⟨f, _, rfl⟩
      simp [transform_xtemp]
    · exact h1
    · simp [transform_xtemp]
  have hxtlen : (make_xtilde Nsamp ((List.range Nf).map fun f : ℕ =>
      transform_xtemp Nd lam V (fun _ _ => 0) f ii)).length = 2 * Nf + 2 := by
    rw [make_xtilde, if_pos heven]
    simp [hcollen]
    omega
  have hifft0 : ∀ x ∈ np_ifft (make_xtilde Nsamp ((List.range Nf).map fun f : ℕ =>
      transform_xtemp Nd lam V (fun _ _ => 0) f ii)), x = 0 := by
    intro x hx
    rw [np_ifft] at hx
    rcases List.mem_map.mp hx with ⟨n, _, rfl⟩
    rw [Finset.sum_eq_zero, zero_div]
    intro k _
    rw [getD_zero_of_all_zero _ hxt0 k, zero_mul]
  have hifftlen : (np_ifft (make_xtilde Nsamp ((List.range Nf).map fun f : ℕ =>
      transform_xtemp Nd lam V (fun _ _ => 0) f ii))).length = 2 * Nf + 2 := by
    rw [np_ifft, List.length_map, List.length_range, hxtlen]
  constructor
  · rw [List.length_take, List.length_map, hifftlen]
    omega
  · intro x hx
    have hx2 := List.take_subset Nsamp _ hx
    rcases List.mem_map.mp hx2 with ⟨y, hy, rfl⟩
    rw [hifft0 y hy]
    exact Complex.zero_re

/-- A zipWith whose pairs all map to zero is all-zero. -/
theorem zipWith_all_zero (f : ℝ → ℝ → ℝ) :
    ∀ (a b : List ℝ), (∀ u ∈ a, ∀ v ∈ b, f u v = 0) →
      ∀ x ∈ List.zipWith f a b, x = 0 := by
  intro a
  induction a with
  | nil => simp
  | cons u us ih =>
    intro b h
    cases b with
    | nil => simp
    | cons v vs =>
      intro x hx
      rcases List.mem_cons.mp (by simpa using hx) with h1 | h2
      · rw [h1]
        exact h u (List.mem_cons_self u us) v (List.mem_cons_self v vs)
      · exact ih vs (fun p hp q hq => h p (List.mem_cons_of_mem u hp) q
          (List.mem_cons_of_mem v hq)) x h2

/-- Splicing three all-zero segments of even length N yields an all-zero
chunk of length N. -/
theorem splice_chunk_zero (N : ℕ) (hN : N % 2 = 0) (s0 s1 s2 : List ℝ)
    (h0 : s0.length = N) (h1 : s1.length = N) (h2 : s2.length = N)
    (hz0 : ∀ x ∈ s0, x = 0) (hz1 : ∀ x ∈ s1, x = 0) (hz2 : ∀ x ∈ s2, x = 0) :
    ∃ l, splice_chunk N (splice_taper N) s0 s1 s2 = some l ∧ l.length = N ∧
      ∀ x ∈ l, x = 0 := by
  have htap := splice_taper_length N
  have hy0 : ∀ x ∈ List.zipWith (· * ·) (splice_taper N) s0, x = 0 :=
    zipWith_all_zero _ _ _ (fun u _ v hv => by rw [hz0 v hv, mul_zero])
  have hy1 : ∀ x ∈ List.zipWith (· * ·) (splice_taper N) s1, x = 0 :=
    zipWith_all_zero _ _ _ (fun u _ v hv => by rw [hz1 v hv, mul_zero])
  have hy2 : ∀ x ∈ List.zipWith (· * ·) (splice_taper N) s2, x = 0 :=
    zipWith_all_zero _ _ _ (fun u _ v hv => by rw [hz2 v hv, mul_zero])
  have hzz0 : ∀ x ∈ (List.zipWith (· * ·) (splice_taper N) s0).drop (N / 2) ++
      List.replicate (N / 2) (0 : ℝ), x = 0 := by
    intro x hx
    rcases List.mem_append.mp hx with h | h
    · exact hy0 x (List.drop_subset _ _ h)
    · exact List.eq_of_mem_replicate h
  have hzz2 : ∀ x ∈ List.replicate (N / 2) (0 : ℝ) ++
      (List.zipWith (· * ·) (splice_taper N) s2).take (N / 2), x = 0 := by
    intro x hx
    rcases List.mem_append.mp hx with h | h
    · exact List.eq_of_mem_replicate h
    · exact hy2 x (List.take_subset _ _ h)
  rw [splice_chunk]
  rw [np_bin_eq_len _ _ _ (by rw [htap, h0])]
  simp only [Option.some_bind]
  rw [np_bin_eq_len _ _ _ (by rw [htap, h1])]
  simp only [Option.some_bind]
  rw [np_bin_eq_len _ _ _ (by rw [htap, h2])]
  simp only [Option.some_bind]
  have lz0 : ((List.zipWith (· * ·) (splice_taper N) s0).drop (N / 2) ++
      List.replicate (N / 2) (0 : ℝ)).length = N := by
    simp [List.length_zipWith, htap, h0]
    omega
  have ly1 : (List.zipWith (· * ·) (splice_taper N) s1).length = N := by
    simp [List.length_zipWith, htap, h1]
  have lz2 : (List.replicate (N / 2) (0 : ℝ) ++
      (List.zipWith (· * ·) (splice_taper N) s2).take (N / 2)).length = N := by
    simp [List.length_zipWith, htap, h2]
    omega
  rw [np_bin_eq_len _ _ _ (by rw [lz0, ly1])]
  simp only [Option.some_bind]
  have hs01 : ∀ x ∈ List.zipWith (· + ·)
      ((List.zipWith (· * ·) (splice_taper N) s0).drop (N / 2) ++
        List.replicate (N / 2) (0 : ℝ))
      (List.zipWith (· * ·) (splice_taper N) s1), x = 0 :=
    zipWith_all_zero _ _ _ (fun u hu v hv => by rw [hzz0 u hu, hy1 v hv, add_zero])
  have ls01 : (List.zipWith (· + ·)
      ((List.zipWith (· * ·) (splice_taper N) s0).drop (N / 2) ++
        List.replicate (N / 2) (0 : ℝ))
      (List.zipWith (· * ·) (splice_taper N) s1)).length = N := by
    simp [List.length_zipWith, lz0, ly1]
  rw [np_bin_eq_len _ _ _ (by rw [ls01, lz2])]
  simp only [Option.some_bind]
  have hsall : ∀ x ∈ List.zipWith (· + ·)
      (List.zipWith (· + ·)
        ((List.zipWith (· * ·) (splice_taper N) s0).drop (N / 2) ++
          List.replicate (N / 2) (0 : ℝ))
        (List.zipWith (· * ·) (splice_taper N) s1))
      (List.replicate (N / 2) (0 : ℝ) ++
        (List.zipWith (· * ·) (splice_taper N) s2).take (N / 2)), x = 0 :=
    zipWith_all_zero _ _ _ (fun u hu v hv => by rw [hs01 u hu, hzz2 v hv, add_zero])
  have lsall : (List.zipWith (· + ·)
      (List.zipWith (· + ·)
        ((List.zipWith (· * ·) (splice_taper N) s0).drop (N / 2) ++
          List.replicate (N / 2) (0 : ℝ))
        (List.zipWith (· * ·) (splice_taper N) s1))
      (List.replicate (N / 2) (0 : ℝ) ++
        (List.zipWith (· * ·) (splice_taper N) s2).take (N / 2))).length = N := by
    simp [List.length_zipWith, ls01, lz2]
  rw [if_pos lsall]
  exact ⟨_, rfl, lsall, hsall⟩

/-- Flattening all-zero chunks gives an all-zero stream. -/
theorem flatten_all_zero (chunks : List (List ℝ))
    (h : ∀ c ∈ chunks, ∀ x ∈ c, x = 0) : ∀ x ∈ chunks.flatten, x = 0 := by
  intro x hx
  rcases List.mem_flatten.mp hx with ⟨c, hc, hxc⟩
  exact h c hc x hxc

/-- C4 amended: with zero GW power and zero noise the covariance entries
are not zero — the flooring step makes every entry
(N_samples/(4·deltaT))·1e-45 — so the generator draws from a nonzero
covariance and the end-to-end output is NOT zero for every realization
(see the counterexample); it is all-zero exactly in degenerate cases such
as the zero draw, for which the full pipeline (coloring, Hermitian
assembly, inverse transform, splicing) produces the all-zero output. -/
theorem C4_amended :
    (∀ (orfs : List (ℕ → ℝ)) (Nsamp : ℕ) (deltaT : ℝ) (ii jj ff : ℕ),
      covariance_matrix (fun _ _ => 0) (fun _ => 0) orfs Nsamp deltaT ii jj ff =
        (Nsamp : ℝ) / (deltaT * 4) * (1 / 10 ^ 45)) ∧
    (∀ (Nd Nf N_segments Nsamp : ℕ) (lam : ℕ → ℕ → ℝ) (V : ℕ → ℕ → ℕ → ℝ),
      Nsamp % 2 = 0 → Nsamp ≤ 2 * Nf + 2 →
      ∃ out, splice_segments N_segments Nsamp
          (simulate_data Nd Nf N_segments Nsamp lam V (fun _ _ _ => 0)) = some out ∧
        all_zero_data out) := by
  constructor
  · exact cov_zero_inputs_const
  · intro Nd Nf N_segments Nsamp lam V heven hle
    have hseg : ∀ det ∈ simulate_data Nd Nf N_segments Nsamp lam V (fun _ _ _ => 0),
        det.length = 2 * N_segments + 1 ∧
        ∀ s ∈ det, s.length = Nsamp ∧ ∀ x ∈ s, x = 0 := by
      intro det hdet
      rw [simulate_data] at hdet
      rcases List.mem_map.mp hdet with ⟨ii, _, rfl⟩
      constructor
      · rw [List.length_map, List.length_range]
      · intro s hs
        rcases List.mem_map.mp hs with ⟨kk, _, rfl⟩
        exact zero_draw_segment Nd Nf Nsamp lam V heven hle ii
    have harg_det : ∀ det ∈ simulate_data Nd Nf N_segments Nsamp lam V (fun _ _ _ => 0),
        ∃ b, ((optList (fun jj => splice_chunk Nsamp (splice_taper Nsamp)
          (det.getD (2 * jj) []) (det.getD (2 * jj + 1) []) (det.getD (2 * jj + 2) []))
          (List.range N_segments)).map fun chunks => chunks.flatten) = some b ∧
          ∀ x ∈ b, x = 0 := by
      intro det hdet
      obtain ⟨hdlen, hsall⟩ := hseg det hdet
      have hget : ∀ k, k < 2 * N_segments + 1 →
          (det.getD k []).length = Nsamp ∧ ∀ x ∈ det.getD k [], x = 0 := by
        intro k hk
        apply hsall
        have hklt : k < det.length := by omega
        rw [List.getD_eq_getElem det [] hklt]
        exact List.getElem_mem hklt
      have harg : ∀ jj ∈ List.range N_segments,
          ∃ b, splice_chunk Nsamp (splice_taper Nsamp) (det.getD (2 * jj) [])
            (det.getD (2 * jj + 1) []) (det.getD (2 * jj + 2) []) = some b ∧
            ∀ x ∈ b, x = 0 := by
        intro jj hjj
        have hjlt : jj < N_segments := List.mem_range.mp hjj
        obtain ⟨l, hl, _, hlz⟩ := splice_chunk_zero Nsamp heven _ _ _
          (hget (2 * jj) (by omega)).1 (hget (2 * jj + 1) (by omega)).1
          (hget (2 * jj + 2) (by omega)).1 (hget (2 * jj) (by omega)).2
          (hget (2 * jj + 1) (by omega)).2 (hget (2 * jj + 2) (by omega)).2
        exact ⟨l, hl, hlz⟩
      obtain ⟨chunks, hc, _, hcz⟩ := optList_forall _ (fun l : List ℝ => ∀ x ∈ l, x = 0)
        (List.range N_segments) harg
      refine ⟨chunks.flatten, ?_, flatten_all_zero chunks hcz⟩
      rw [hc]
      rfl
    obtain ⟨out, hout, _, hP⟩ := optList_forall _ (fun l : List ℝ => ∀ x ∈ l, x = 0)
      (simulate_data Nd Nf N_segments Nsamp lam V (fun _ _ _ => 0)) harg_det
    exact ⟨out, hout, hP⟩

/-- The floored covariance value at N_samples_per_segment = 2 and
deltaT = 1/2, where the scale factor is 1: every entry of the covariance
built from zero noise and zero GW power equals 1e-45. -/
noncomputable def aFloor : ℝ := 1 / 10 ^ 45

/-- A valid eigenvalue array for the all-aFloor 2×2 covariance matrix:
eigenvalues 2·aFloor and 0 at every frequency. -/
noncomputable def lamC : ℕ → ℕ → ℝ := fun _ j => if j = 0 then 2 * aFloor else 0

/-- The corresponding normalized eigenvector columns (1,1)/√2 and
(1,-1)/√2 at every frequency. -/
noncomputable def VC : ℕ → ℕ → ℕ → ℝ := fun _ k j =>
  if j = 0 then Real.sqrt 2 / 2 else if k = 0 then Real.sqrt 2 / 2 else -(Real.sqrt 2 / 2)

/-- A realization of the random draws: the unit draw in component 0 at
frequency bin 0 of segment 1, zero everywhere else. -/
def zC : ℕ → ℕ → ℕ → ℂ := fun kk f j => if kk = 1 ∧ f = 0 ∧ j = 0 then 1 else 0

/-- The nonzero amplitude sqrt(2·aFloor)·(√2/2) this draw produces in the
colored spectrum. -/
noncomputable def rC : ℝ := Real.sqrt (2 * aFloor) * (Real.sqrt 2 / 2)

/-- (lamC, VC) satisfies the numpy.linalg.eig contract for the covariance
built from zero noise and zero GW power at Nsamp = 2, deltaT = 1/2. -/
theorem eig_contract_C :
    eig_contract 2 2 (covariance_matrix (fun _ _ => 0) (fun _ => 0) [fun _ => 0] 2 (1 / 2))
      lamC VC := by
  have hCC : ∀ k m ff : ℕ, covariance_matrix (fun _ _ => 0) (fun _ => 0) [fun _ => 0] 2
      (1 / 2) k m ff = aFloor := by
    intro k m ff
    rw [cov_zero_inputs_const]
    norm_num [aFloor]
  have hc2 : (Real.sqrt 2 / 2) ^ 2 = 1 / 2 := by
    rw [div_pow, Real.sq_sqrt (by norm_num : (0 : ℝ) ≤ 2)]
    norm_num
  intro ff hff j hj
  constructor
  · intro k hk
    rw [Finset.sum_range_succ, Finset.sum_range_succ, Finset.sum_range_zero, hCC, hCC]
    interval_cases j
    · simp only [lamC, VC]
      norm_num
      ring
    · simp only [lamC, VC]
      norm_num
  · rw [Finset.sum_range_succ, Finset.sum_range_succ, Finset.sum_range_zero]
    interval_cases j
    · simp only [VC]
      norm_num
      linarith [hc2]
    · simp only [VC]
      norm_num
      nlinarith [hc2]

/-- The colored spectrum vanishes wherever the draw does. -/
theorem trC_zero (kk f ii : ℕ) (h : ¬(kk = 1 ∧ f = 0)) :
    transform_xtemp 2 lamC VC (zC kk) f ii = 0 := by
  rw [transform_xtemp, Finset.sum_range_succ, Finset.sum_range_succ, Finset.sum_range_zero]
  have h0 : zC kk f 0 = 0 := by
    rw [zC]
    simp only [ite_eq_right_iff]
    intro hc
    exact absurd ⟨hc.1, hc.2.1⟩ h
  have h1 : zC kk f 1 = 0 := by
    rw [zC]
    norm_num
  rw [h0, h1]
  ring

/-- At segment 1, frequency bin 0, the colored spectrum is rC in both
detectors. -/
theorem trC_one (ii : ℕ) : transform_xtemp 2 lamC VC (zC 1) 0 ii = (rC : ℂ) := by
  rw [transform_xtemp, Finset.sum_range_succ, Finset.sum_range_succ, Finset.sum_range_zero]
  have h0 : zC 1 0 0 = 1 := by rw [zC]; norm_num
  have h1 : zC 1 0 1 = 0 := by rw [zC]; norm_num
  rw [h0, h1, rC]
  simp only [lamC, VC, if_pos rfl]
  push_cast
  ring

/-- Hermitian assembly of the active segment's spectrum. -/
theorem xtilde_one : make_xtilde 2 [(rC : ℂ), 0] = [0, (rC : ℂ), 0, 0, 0, (rC : ℂ)] := by
  rw [make_xtilde, if_pos (by norm_num)]
  simp [Complex.conj_ofReal]

/-- Hermitian assembly of a silent segment's spectrum. -/
theorem xtilde_z : make_xtilde 2 ([0, 0] : List ℂ) = [0, 0, 0, 0, 0, 0] := by
  rw [make_xtilde, if_pos (by norm_num)]
  simp

/-- cos(5·pi/3) = 1/2. -/
theorem cos_5pi_3 : Real.cos (5 * Real.pi / 3) = 1 / 2 := by
  have h : (5 * Real.pi / 3 : ℝ) = 2 * Real.pi - Real.pi / 3 := by ring
  rw [h, Real.cos_sub, Real.cos_two_pi, Real.sin_two_pi, Real.cos_pi_div_three]
  ring

/-- A silent segment's time series is zero. -/
theorem seg_z : ((np_ifft ([0, 0, 0, 0, 0, 0] : List ℂ)).map Complex.re).take 2 =
    [(0 : ℝ), 0] := by
  have h6 : ([0, 0, 0, 0, 0, 0] : List ℂ).length = 6 := rfl
  rw [np_ifft, h6]
  have hr : List.range 6 = [0, 1, 2, 3, 4, 5] := rfl
  rw [hr]
  simp [Finset.sum_range_succ, List.getD]

/-- The active segment's time series is [rC/3, rC/6]: the length-6
inverse transform of [0, rC, 0, 0, 0, rC] evaluated at n = 0 and n = 1
(the cosines at pi/3 and 5·pi/3 are both 1/2). -/
theorem seg_one : ((np_ifft [0, (rC : ℂ), 0, 0, 0, (rC : ℂ)]).map Complex.re).take 2 =
    [rC / 3, rC / 6] := by
  have h6 : ([0, (rC : ℂ), 0, 0, 0, (rC : ℂ)]).length = 6 := rfl
  rw [np_ifft, h6]
  have hr : List.range 6 = [0, 1, 2, 3, 4, 5] := rfl
  rw [hr]
  simp only [List.map_cons, List.map_nil, List.take_succ_cons, List.take_zero]
  have g0 : ([0, (rC : ℂ), 0, 0, 0, (rC : ℂ)]).getD 0 0 = 0 := rfl
  have g1 : ([0, (rC : ℂ), 0, 0, 0, (rC : ℂ)]).getD 1 0 = (rC : ℂ) := rfl
  have g2 : ([0, (rC : ℂ), 0, 0, 0, (rC : ℂ)]).getD 2 0 = 0 := rfl
  have g3 : ([0, (rC : ℂ), 0, 0, 0, (rC : ℂ)]).getD 3 0 = 0 := rfl
  have g4 : ([0, (rC : ℂ), 0, 0, 0, (rC : ℂ)]).getD 4 0 = 0 := rfl
  have g5 : ([0, (rC : ℂ), 0, 0, 0, (rC : ℂ)]).getD 5 0 = (rC : ℂ) := rfl
  simp only [List.cons.injEq, and_true]
  constructor
  · rw [Finset.sum_range_succ, Finset.sum_range_succ, Finset.sum_range_succ,
      Finset.sum_range_succ, Finset.sum_range_succ, Finset.sum_range_succ,
      Finset.sum_range_zero, g0, g1, g2, g3, g4, g5]
    simp only [zero_mul, zero_add, add_zero]
    have hA0 : (2 * (Real.pi : ℂ) * Complex.I * (1 : ℕ) * (0 : ℕ) / (6 : ℕ)) = 0 := by
      push_cast
      ring
    have hA5 : (2 * (Real.pi : ℂ) * Complex.I * (5 : ℕ) * (0 : ℕ) / (6 : ℕ)) = 0 := by
      push_cast
      ring
    rw [hA0, hA5, Complex.exp_zero, mul_one]
    have : ((rC : ℂ) + (rC : ℂ)) / ((6 : ℕ) : ℂ) = ((rC / 3 : ℝ) : ℂ) := by
      push_cast
      ring
    rw [this, Complex.ofReal_re]
  · rw [Finset.sum_range_succ, Finset.sum_range_succ, Finset.sum_range_succ,
      Finset.sum_range_succ, Finset.sum_range_succ, Finset.sum_range_succ,
      Finset.sum_range_zero, g0, g1, g2, g3, g4, g5]
    simp only [zero_mul, zero_add, add_zero]
    have hA1 : (2 * (Real.pi : ℂ) * Complex.I * (1 : ℕ) * (1 : ℕ) / (6 : ℕ)) =
        ((Real.pi / 3 : ℝ) : ℂ) * Complex.I := by
      push_cast
      ring
    have hA5 : (2 * (Real.pi : ℂ) * Complex.I * (5 : ℕ) * (1 : ℕ) / (6 : ℕ)) =
        ((5 * Real.pi / 3 : ℝ) : ℂ) * Complex.I := by
      push_cast
      ring
    rw [hA1, hA5]
    have h6c : ((6 : ℕ) : ℂ) = ((6 : ℝ) : ℂ) := by norm_cast
    rw [h6c, Complex.div_ofReal_re, Complex.add_re, Complex.re_ofReal_mul,
      Complex.re_ofReal_mul, Complex.exp_ofReal_mul_I_re, Complex.exp_ofReal_mul_I_re,
      Real.cos_pi_div_three, cos_5pi_3]
    ring

/-- The full simulated data of the chosen realization: the middle segment
carries [rC/3, rC/6] in both detectors, all other segments are silent. -/
theorem simC : simulate_data 2 2 1 2 lamC VC zC =
    [[[0, 0], [rC / 3, rC / 6], [0, 0]], [[0, 0], [rC / 3, rC / 6], [0, 0]]] := by
  rw [simulate_data]
  have hr2 : List.range 2 = [0, 1] := rfl
  have hr3 : List.range (2 * 1 + 1) = [0, 1, 2] := rfl
  simp only [hr2, hr3, List.map_cons, List.map_nil]
  rw [trC_one 0, trC_one 1,
    trC_zero 0 0 0 (by norm_num), trC_zero 0 1 0 (by norm_num),
    trC_zero 1 1 0 (by norm_num), trC_zero 2 0 0 (by norm_num),
    trC_zero 2 1 0 (by norm_num),
    trC_zero 0 0 1 (by norm_num), trC_zero 0 1 1 (by norm_num),
    trC_zero 1 1 1 (by norm_num), trC_zero 2 0 1 (by norm_num),
    trC_zero 2 1 1 (by norm_num)]
  rw [xtilde_one, xtilde_z, seg_one, seg_z]

/-- The half-sine taper at N = 2 is [0, 1]. -/
theorem taper2 : splice_taper 2 = [0, 1] := by
  rw [splice_taper]
  have hr : List.range 2 = [0, 1] := rfl
  rw [hr]
  simp [Real.sin_pi_div_two]

/-- Splicing the realization's segments: the output is [0, rC/6] for both
detectors — the middle sample of the active segment survives the
half-sine crossfade untouched. -/
theorem spliceC :
    splice_segments 1 2 [[[0, 0], [rC / 3, rC / 6], [0, 0]],
      [[0, 0], [rC / 3, rC / 6], [0, 0]]] = some [[0, rC / 6], [0, rC / 6]] := by
  have hchunk : splice_chunk 2 (splice_taper 2) [0, 0] [rC / 3, rC / 6] [0, 0] =
      some [0, rC / 6] := by
    rw [splice_chunk, taper2]
    rw [np_bin_eq_len (· * ·) ([0, 1] : List ℝ) ([0, 0] : List ℝ) (by norm_num)]
    simp only [Option.some_bind]
    rw [np_bin_eq_len (· * ·) ([0, 1] : List ℝ) ([rC / 3, rC / 6] : List ℝ) (by norm_num)]
    simp only [Option.some_bind]
    norm_num [List.zipWith, np_bin]
  rw [splice_segments]
  have hr1 : List.range 1 = [0] := rfl
  have d0 : ([[0, 0], [rC / 3, rC / 6], [0, 0]] : List (List ℝ)).getD (2 * 0) [] =
      [0, 0] := rfl
  have d1 : ([[0, 0], [rC / 3, rC / 6], [0, 0]] : List (List ℝ)).getD (2 * 0 + 1) [] =
      [rC / 3, rC / 6] := rfl
  have d2 : ([[0, 0], [rC / 3, rC / 6], [0, 0]] : List (List ℝ)).getD (2 * 0 + 2) [] =
      [0, 0] := rfl
  simp only [optList, hr1, d0, d1, d2, hchunk, Option.some_bind, Option.map_some']
  rfl

/-- C4 counterexample: for the covariance built from zero GW power and
zero noise (floored to 1e-45 and scaled by 1 at Nsamp = 2, deltaT = 1/2),
there is a valid eigendecomposition and a realization of the random draws
for which the spliced output is not identically zero: the sample rC/6 > 0
appears in both detectors.  The claim's universally-quantified statement
is therefore false. -/
theorem C4_counterexample :
    ¬ (∀ (lam : ℕ → ℕ → ℝ) (V : ℕ → ℕ → ℕ → ℝ),
        eig_contract 2 2 (covariance_matrix (fun _ _ => 0) (fun _ => 0)
          [fun _ => 0] 2 (1 / 2)) lam V →
        ∀ z : ℕ → ℕ → ℕ → ℂ, ∀ out,
          splice_segments 1 2 (simulate_data 2 2 1 2 lam V z) = some out →
          all_zero_data out) := by
  intro h
  have hz := h lamC VC eig_contract_C zC [[0, rC / 6], [0, rC / 6]]
    (by rw [simC]; exact spliceC)
  have hmem : rC / 6 ∈ ([0, rC / 6] : List ℝ) :=
    List.mem_cons_of_mem _ (List.mem_cons_self _ _)
  have h0 : rC / 6 = 0 := hz [0, rC / 6] (List.mem_cons_self _ _) _ hmem
  have hrpos : 0 < rC := by
    rw [rC]
    apply mul_pos
    · apply Real.sqrt_pos.mpr
      rw [aFloor]
      norm_num
    · have h2 : (0 : ℝ) < Real.sqrt 2 := Real.sqrt_pos.mpr (by norm_num)
      linarith
  have : rC = 0 := by linarith
  linarith

/-- C4 witness: the amended statement at the concrete degenerate
configuration (two detectors, two bins, one output segment, two samples,
zero eigendata, zero draw): covariance constant 1e-45 and all-zero
output. -/
theorem C4_witness :
    covariance_matrix (fun _ _ => 0) (fun _ => 0) [fun _ => 0] 2 (1 / 2) 0 0 0 =
      ((2 : ℕ) : ℝ) / ((1 / 2) * 4) * (1 / 10 ^ 45) ∧
    ∃ out, splice_segments 1 2 (simulate_data 2 2 1 2 (fun _ _ => 0) (fun _ _ _ => 0)
      (fun _ _ _ => 0)) = some out ∧ all_zero_data out := by
  constructor
  · exact C4_amended.1 [fun _ => 0] 2 (1 / 2) 0 0 0
  · exact C4_amended.2 2 2 1 2 (fun _ _ => 0) (fun _ _ _ => 0) (by norm_num) (by norm_num)
